import Mathlib

/-!
Verification of the WUG-simulation repository: a shallow embedding of the
annotated-graph data model (`src/graphs/annotated_graph.py`), the
correlation clusterer
(`src/simulation/clustering/utils/new_cluster_correlation_search.py`) and
the DWUG sampler (`src/simulation/sampling/utils/dwug_sampling.py`),
together with theorems settling the specification claims.

Conventions of the embedding:
* Python floats carrying judgements are modelled as `Option ℚ`, where
  `none` plays the role of `np.nan` (the MISSING sentinel).
* Python dicts keyed by edge pairs are modelled as total functions with
  default value `[]` / `none`; a key is "absent" exactly when the value is
  the default (in the source a key is never stored with an empty history).
* Randomness (`random.choice`, `np.random.choice`) is modelled by oracle
  functions passed in explicitly; theorems quantify over all oracles,
  constrained only by membership/size hypotheses that the real samplers
  guarantee.
-/

namespace WugSim

/-- A judgement value: `some q` is a numeric rating, `none` is the NaN
sentinel the source uses for MISSING judgements. -/
abbrev Judgement := Option ℚ

/-- The numeric (non-NaN) values of a judgement history; `np.nanmedian`
ignores the NaN entries. -/
def numericVals (l : List Judgement) : List ℚ := l.filterMap id

/-- Median of a sorted list, numpy style: the middle element for odd
length, the mean of the two middle elements for even length. -/
def medianSorted (s : List ℚ) : ℚ :=
  if s.length % 2 = 1 then s.getD (s.length / 2) 0
  else (s.getD (s.length / 2 - 1) 0 + s.getD (s.length / 2) 0) / 2

/-- Embedding of `np.nanmedian`: the median of the non-NaN values of the
list, or `none` (NaN) when the list has no numeric value at all. -/
def nanmedian (l : List Judgement) : Option ℚ :=
  let vals := (numericVals l).insertionSort (· ≤ ·)
  if vals = [] then none else some (medianSorted vals)

/-- State of `AnnotatedGraph` (`src/graphs/annotated_graph.py`).  The
fields mirror, in order: `_max_nodes`, `labels`, `last_edge`,
`judgements`, the dicts `G.graph['edge_added_weights']`,
`G.graph['edge_weight']`, `G.graph['edge_soft_weight']`,
`G.graph['weight_edge']`, the edge and node lists of the underlying
`networkx` graph `G`, and `G.graph['community_nodes']`. -/
structure AnnotatedGraph where
  max_nodes : ℕ
  labels : List ℤ
  last_edge : Option (ℕ × ℕ)
  judgements : ℕ
  edge_added_weights : ℕ × ℕ → List Judgement
  edge_weight : ℕ × ℕ → Option ℚ
  edge_soft_weight : ℕ × ℕ → Option ℚ
  weight_edge : ℚ → List (ℕ × ℕ)
  edges : List (ℕ × ℕ)
  gnodes : List ℕ
  community_nodes : List (ℕ × List ℕ)

/-- `AnnotatedGraph.__init__`: all labels start at `-1`, no judgements,
all dicts empty.  The dicts `edge_weight`, `weight_edge` and
`community_nodes` are initialized (empty) by the missing base class
`BaseGraph`; modelled from the spec: the annotated graph starts with no
edges and no communities. -/
def AnnotatedGraph.empty (max_nodes : ℕ) : AnnotatedGraph where
  max_nodes := max_nodes
  labels := List.replicate max_nodes (-1)
  last_edge := none
  judgements := 0
  edge_added_weights := fun _ => []
  edge_weight := fun _ => none
  edge_soft_weight := fun _ => none
  weight_edge := fun _ => []
  edges := []
  gnodes := []
  community_nodes := []

/-- The value actually appended to the judgement history:
`nweight = weight if weight != 0 else np.nan` (line 63 of
`annotated_graph.py`).  A numeric `0` is replaced by the NaN sentinel; NaN
itself satisfies `weight != 0` in Python but stays NaN. -/
def storedJudgement : Judgement → Judgement
  | some w => if w = 0 then none else some w
  | none => none

/-- `networkx` node insertion: a node is appended when not yet present. -/
def insertNode (n : ℕ) (l : List ℕ) : List ℕ := if n ∈ l then l else l ++ [n]

/-- `AnnotatedGraph.add_edge` (lines 52-86).  The pair is canonicalized by
sorting, the (possibly NaN-ized) judgement is appended to the history, and
the nan-median of the history is recomputed.  If it is NaN, only
`last_edge` and `judgements` are updated; otherwise the edge is
materialized in `G` and the weight dicts are updated. -/
def AnnotatedGraph.add_edge (g : AnnotatedGraph) (node_u node_v : ℕ)
    (weight : Judgement) : AnnotatedGraph :=
  match nanmedian (g.edge_added_weights (min node_u node_v, max node_u node_v) ++
      [storedJudgement weight]) with
  | none =>
      { g with
        edge_added_weights := fun p =>
          if p = (min node_u node_v, max node_u node_v) then
            g.edge_added_weights (min node_u node_v, max node_u node_v) ++
              [storedJudgement weight]
          else g.edge_added_weights p
        last_edge := some (node_u, node_v)
        judgements := g.judgements + 1 }
  | some w =>
      { g with
        edge_added_weights := fun p =>
          if p = (min node_u node_v, max node_u node_v) then
            g.edge_added_weights (min node_u node_v, max node_u node_v) ++
              [storedJudgement weight]
          else g.edge_added_weights p
        edges :=
          if (min node_u node_v, max node_u node_v) ∈ g.edges then g.edges
          else g.edges ++ [(min node_u node_v, max node_u node_v)]
        gnodes := insertNode (max node_u node_v) (insertNode (min node_u node_v) g.gnodes)
        edge_weight := fun p =>
          if p = (min node_u node_v, max node_u node_v) then some w else g.edge_weight p
        edge_soft_weight := fun p =>
          if p = (min node_u node_v, max node_u node_v) then some (w - 5/2)
          else g.edge_soft_weight p
        weight_edge := fun x =>
          if x = w then g.weight_edge w ++ [(min node_u node_v, max node_u node_v)]
          else g.weight_edge x
        last_edge := some (node_u, node_v)
        judgements := g.judgements + 1 }

/-- `AnnotatedGraph.get_edge` (lines 34-50): `None` when the pair was
never judged, otherwise the nan-median of its history, with NaN collapsed
to `0`. -/
def AnnotatedGraph.get_edge (g : AnnotatedGraph) (u_node v_node : ℕ) : Option ℚ :=
  if g.edge_added_weights (min u_node v_node, max u_node v_node) = [] then none
  else
    match nanmedian (g.edge_added_weights (min u_node v_node, max u_node v_node)) with
    | none => some 0
    | some w => some w

/-- `AnnotatedGraph.add_edges` (lines 88-99): fold `add_edge` over a list
of `(u, v, weight)` triples. -/
def AnnotatedGraph.add_edges (g : AnnotatedGraph)
    (edge_list : List (ℕ × ℕ × Judgement)) : AnnotatedGraph :=
  edge_list.foldl (fun h t => h.add_edge t.1 t.2.1 t.2.2) g

/-- `AnnotatedGraph.get_last_added_edge` (lines 101-102). -/
def AnnotatedGraph.get_last_added_edge (g : AnnotatedGraph) : Option (ℕ × ℕ) :=
  g.last_edge

/-- `AnnotatedGraph.get_last_added_node` (lines 104-107): the second
component of the last edge. -/
def AnnotatedGraph.get_last_added_node (g : AnnotatedGraph) : Option ℕ :=
  g.last_edge.map (fun p => p.2)

/-- `AnnotatedGraph.get_num_added_edges` (lines 109-110). -/
def AnnotatedGraph.get_num_added_edges (g : AnnotatedGraph) : ℕ := g.judgements

/-- Modelled from the spec: `get_number_edges` comes from the missing base
class `BaseGraph`; per the spec's data model it is the number of
(materialized) edges of the underlying graph. -/
def AnnotatedGraph.get_number_edges (g : AnnotatedGraph) : ℕ := g.edges.length

/-- `AnnotatedGraph.get_community_nodes`: accessor for the community dict
(the base-class getter used by the sampler). -/
def AnnotatedGraph.get_community_nodes (g : AnnotatedGraph) : List (ℕ × List ℕ) :=
  g.community_nodes

/-- `AnnotatedGraph.update_community_nodes_membership` (lines 144-156).
The `super()` call is modelled from the spec: the base class replaces
`community_nodes` wholesale.  Then `labels[node] = k` is executed for
every community `k` and every node in it; labels of untouched nodes are
left as they were. -/
def AnnotatedGraph.update_community_nodes_membership (g : AnnotatedGraph)
    (new_community_nodes : List (ℕ × List ℕ)) : AnnotatedGraph :=
  { g with
    community_nodes := new_community_nodes
    labels := new_community_nodes.foldl
      (fun ls kv => kv.2.foldl (fun ls2 node => ls2.set node (kv.1 : ℤ)) ls)
      g.labels }


/-- The weight invariant of the annotated graph: for every canonical pair,
the materialized weight is the nan-median of the pair's judgement history
and the soft weight is that weight minus `2.5`. -/
def weightInvariant (g : AnnotatedGraph) : Prop :=
  ∀ p : ℕ × ℕ,
    g.edge_weight p = nanmedian (g.edge_added_weights p) ∧
    g.edge_soft_weight p = (nanmedian (g.edge_added_weights p)).map (fun w => w - 5/2)

theorem insertionSort_eq_nil_iff (l : List ℚ) :
    l.insertionSort (· ≤ ·) = [] ↔ l = [] := by
  constructor
  · intro h
    have hp := List.perm_insertionSort (fun a b : ℚ => a ≤ b) l
    rw [h] at hp
    exact hp.symm.eq_nil
  · intro h; subst h; rfl

theorem nanmedian_eq_none_iff (l : List Judgement) :
    nanmedian l = none ↔ numericVals l = [] := by
  unfold nanmedian
  by_cases h : (numericVals l).insertionSort (· ≤ ·) = []
  · simp [h, (insertionSort_eq_nil_iff (numericVals l)).mp h]
  · have h2 : ¬ numericVals l = [] := fun hl => h ((insertionSort_eq_nil_iff _).mpr hl)
    simp [h, h2]

theorem numericVals_append (l1 l2 : List Judgement) :
    numericVals (l1 ++ l2) = numericVals l1 ++ numericVals l2 :=
  List.filterMap_append l1 l2 id

theorem add_edge_weightInvariant (g : AnnotatedGraph) (u v : ℕ) (w : Judgement)
    (h : weightInvariant g) : weightInvariant (g.add_edge u v w) := by
  intro p
  rcases hm : nanmedian (g.edge_added_weights (min u v, max u v) ++ [storedJudgement w])
    with _ | w'
  · by_cases hp : p = (min u v, max u v)
    · subst hp
      have hold : nanmedian (g.edge_added_weights (min u v, max u v)) = none := by
        rw [nanmedian_eq_none_iff] at hm ⊢
        rw [numericVals_append] at hm
        exact List.append_eq_nil.mp hm |>.1
      have hw := (h (min u v, max u v)).1
      have hs := (h (min u v, max u v)).2
      rw [hold] at hw hs
      simp [AnnotatedGraph.add_edge, hm, hw, hs, hold]
    · have hw := (h p).1
      have hs := (h p).2
      simp [AnnotatedGraph.add_edge, hm, hp, hw, hs]
  · by_cases hp : p = (min u v, max u v)
    · subst hp
      simp [AnnotatedGraph.add_edge, hm]
    · have hw := (h p).1
      have hs := (h p).2
      simp [AnnotatedGraph.add_edge, hm, hp, hw, hs]

theorem add_edges_weightInvariant (ops : List (ℕ × ℕ × Judgement)) :
    ∀ g : AnnotatedGraph, weightInvariant g → weightInvariant (g.add_edges ops) := by
  induction ops with
  | nil => intro g h; exact h
  | cons t ts ih => intro g h; exact ih _ (add_edge_weightInvariant g t.1 t.2.1 t.2.2 h)

theorem empty_weightInvariant (n : ℕ) : weightInvariant (AnnotatedGraph.empty n) := by
  intro p
  constructor <;> rfl

/-- Claim C2: for every reachable annotated graph (any sequence of
judgement appends from the empty graph) and every edge pair, the current
weight equals the nan-median of the numeric values of the pair's
judgement history and the soft weight is that weight minus 2.5; moreover
the concrete scenario S1 (record (0,1,3),(0,1,4),(0,1,MISSING),(0,1,1))
yields current weight 3, soft weight 1/2 and judgement count 4. -/
theorem claim2_thm :
    (∀ (n : ℕ) (ops : List (ℕ × ℕ × Judgement)),
        weightInvariant ((AnnotatedGraph.empty n).add_edges ops)) ∧
    ((AnnotatedGraph.empty 5).add_edges
        [(0,1,some 3),(0,1,some 4),(0,1,none),(0,1,some 1)]).edge_weight (0,1) = some 3 ∧
    ((AnnotatedGraph.empty 5).add_edges
        [(0,1,some 3),(0,1,some 4),(0,1,none),(0,1,some 1)]).get_edge 0 1 = some 3 ∧
    ((AnnotatedGraph.empty 5).add_edges
        [(0,1,some 3),(0,1,some 4),(0,1,none),(0,1,some 1)]).edge_soft_weight (0,1)
      = some (1/2) ∧
    ((AnnotatedGraph.empty 5).add_edges
        [(0,1,some 3),(0,1,some 4),(0,1,none),(0,1,some 1)]).judgements = 4 := by
  refine ⟨fun n ops => add_edges_weightInvariant ops _ (empty_weightInvariant n),
    by decide, by decide, ?_, by decide⟩
  have h : ((AnnotatedGraph.empty 5).add_edges
      [(0,1,some 3),(0,1,some 4),(0,1,none),(0,1,some 1)]).edge_soft_weight (0,1)
      = some ((3 : ℚ) - 5/2) := by rfl
  rw [h]
  norm_num

/-- Claim C1 counterexample: after recording the MISSING judgement for
(2,3) three times on the empty annotated graph, `get_edge 2 3` is NOT
`none` (the source collapses the all-NaN median to the sentinel `0`), so
the claim as stated is false. -/
theorem claim1_counter :
    ¬ ((AnnotatedGraph.empty 10).add_edges [(2,3,none),(2,3,none),(2,3,none)]).get_edge 2 3
        = none := by decide

/-- Claim C1 amended: after recording MISSING for (2,3) three times, no
edge is materialized (`edges = []`, `edge_weight = none`), `get_edge 2 3`
returns `some 0` (the sentinel for a registered but unmaterialized pair,
not `none`), `last_edge = (2,3)` and the judgement count is 3. -/
theorem claim1_thm :
    ((AnnotatedGraph.empty 10).add_edges [(2,3,none),(2,3,none),(2,3,none)]).get_edge 2 3
        = some 0 ∧
    ((AnnotatedGraph.empty 10).add_edges [(2,3,none),(2,3,none),(2,3,none)]).edges = [] ∧
    ((AnnotatedGraph.empty 10).add_edges [(2,3,none),(2,3,none),(2,3,none)]).edge_weight (2,3)
        = none ∧
    ((AnnotatedGraph.empty 10).add_edges [(2,3,none),(2,3,none),(2,3,none)]).last_edge
        = some (2,3) ∧
    ((AnnotatedGraph.empty 10).add_edges [(2,3,none),(2,3,none),(2,3,none)]).judgements = 3 := by
  decide

/-- Claim C8 counterexample: `add_edge` performs no self-loop check; the
judgement (1,1,3) on the empty graph materializes the self-loop edge
(1,1) with weight 3 instead of being rejected. -/
theorem claim8_counter :
    (1,1) ∈ ((AnnotatedGraph.empty 5).add_edge 1 1 (some 3)).edges ∧
    ((AnnotatedGraph.empty 5).add_edge 1 1 (some 3)).get_edge 1 1 = some 3 ∧
    ((AnnotatedGraph.empty 5).add_edge 1 1 (some 3)).judgements = 1 := by decide

/-- Claim C8 amended: a self-judgement `(u,u,x)` with numeric `x ≠ 0` is
accepted like any other pair: it materializes the self-loop edge `(u,u)`
with weight `x` and increments the judgement count. -/
theorem claim8_thm (n u : ℕ) (x : ℚ) (hx : x ≠ 0) :
    ((AnnotatedGraph.empty n).add_edge u u (some x)).edges = [(u,u)] ∧
    ((AnnotatedGraph.empty n).add_edge u u (some x)).get_edge u u = some x ∧
    ((AnnotatedGraph.empty n).add_edge u u (some x)).judgements = 1 := by
  have hsj : storedJudgement (some x) = some x := by simp [storedJudgement, hx]
  have hmed : nanmedian [some x] = some x := by
    simp [nanmedian, numericVals, medianSorted, List.insertionSort, List.orderedInsert]
  refine ⟨?_, ?_, ?_⟩ <;>
    simp [AnnotatedGraph.add_edge, AnnotatedGraph.get_edge, AnnotatedGraph.empty,
      hsj, hmed]

theorem claim8_thm_witness :
    ((AnnotatedGraph.empty 5).add_edge 1 1 (some 3)).edges = [(1,1)] ∧
    ((AnnotatedGraph.empty 5).add_edge 1 1 (some 3)).get_edge 1 1 = some 3 ∧
    ((AnnotatedGraph.empty 5).add_edge 1 1 (some 3)).judgements = 1 :=
  claim8_thm 5 1 3 (by norm_num)

/-- Claim C10: a numeric judgement `0` is stored as the missing sentinel:
`add_edge` with weight `some 0` produces exactly the same state as with
MISSING (`none`); in particular a history of only zeros stores
`[none, none]`, materializes no edge weight, and still counts two
judgements. -/
theorem claim10_thm :
    (∀ (g : AnnotatedGraph) (u v : ℕ), g.add_edge u v (some 0) = g.add_edge u v none) ∧
    ((AnnotatedGraph.empty 4).add_edges [(0,1,some 0),(0,1,some 0)]).edge_added_weights (0,1)
        = [none, none] ∧
    ((AnnotatedGraph.empty 4).add_edges [(0,1,some 0),(0,1,some 0)]).edge_weight (0,1) = none ∧
    ((AnnotatedGraph.empty 4).add_edges [(0,1,some 0),(0,1,some 0)]).edges = [] ∧
    ((AnnotatedGraph.empty 4).add_edges [(0,1,some 0),(0,1,some 0)]).judgements = 2 := by
  refine ⟨?_, by decide, by decide, by decide, by decide⟩
  intro g u v
  have h : storedJudgement (some 0) = storedJudgement none := by simp [storedJudgement]
  simp only [AnnotatedGraph.add_edge, h]

theorem add_edge_last_edge_irrel (g : AnnotatedGraph) (p : Option (ℕ × ℕ)) (u v : ℕ)
    (w : Judgement) :
    AnnotatedGraph.add_edge { g with last_edge := p } u v w = g.add_edge u v w := by
  rcases hm : nanmedian (g.edge_added_weights (min u v, max u v) ++ [storedJudgement w])
    with _ | w' <;>
    simp [AnnotatedGraph.add_edge, hm]

theorem add_edge_canon (g : AnnotatedGraph) (u v : ℕ) (w : Judgement) :
    g.add_edge u v w =
      { g.add_edge (min u v) (max u v) w with last_edge := some (u, v) } := by
  have h1 : min (min u v) (max u v) = min u v := min_eq_left min_le_max
  have h2 : max (min u v) (max u v) = max u v := max_eq_right min_le_max
  rcases hm : nanmedian (g.edge_added_weights (min u v, max u v) ++ [storedJudgement w])
    with _ | w' <;>
    simp [AnnotatedGraph.add_edge, h1, h2, hm]

/-- Claim C9 amended: recording (u,v,x) then (v,u,y) produces exactly the
state of recording both judgements on the canonical sorted pair — same
histories, weights, soft weights, materialized edges, judgement count and
labels — except that `last_edge` keeps the argument order `(v,u)` of the
final call instead of the canonical order. -/
theorem claim9_thm (g : AnnotatedGraph) (u v : ℕ) (x y : Judgement) :
    (g.add_edge u v x).add_edge v u y =
      { (g.add_edge (min u v) (max u v) x).add_edge (min u v) (max u v) y with
        last_edge := some (v, u) } := by
  calc (g.add_edge u v x).add_edge v u y
      = (AnnotatedGraph.add_edge
          { g.add_edge (min u v) (max u v) x with last_edge := some (u, v) } v u y) := by
        rw [← add_edge_canon g u v x]
    _ = (g.add_edge (min u v) (max u v) x).add_edge v u y :=
        add_edge_last_edge_irrel _ _ v u y
    _ = { (g.add_edge (min u v) (max u v) x).add_edge (min v u) (max v u) y with
          last_edge := some (v, u) } := add_edge_canon _ v u y
    _ = { (g.add_edge (min u v) (max u v) x).add_edge (min u v) (max u v) y with
          last_edge := some (v, u) } := by rw [min_comm v u, max_comm v u]

/-- Claim C9 counterexample: the observable last-edge information is NOT
order-independent: recording (0,1,1) then (1,0,2) leaves
`last_edge = (1,0)`, while recording the same judgements in canonical
order leaves `last_edge = (0,1)`, so the two final states are
distinguishable through `get_last_added_edge`. -/
theorem claim9_counter :
    ¬ (((AnnotatedGraph.empty 5).add_edge 0 1 (some 1)).add_edge 1 0 (some 2)).get_last_added_edge
        = (((AnnotatedGraph.empty 5).add_edge 0 1 (some 1)).add_edge 0 1 (some 2)).get_last_added_edge := by
  decide


/-- The flat list of `labels[node] = k` assignments performed by
`update_community_nodes_membership`, in execution order. -/
def labelAssignments (ncn : List (ℕ × List ℕ)) : List (ℕ × ℤ) :=
  ncn.flatMap (fun kv => kv.2.map (fun n => (n, (kv.1 : ℤ))))

/-- Sequential execution of `labels[node] = k` assignments. -/
def applyAssignments (l : List (ℕ × ℤ)) (ls : List ℤ) : List ℤ :=
  l.foldl (fun ls2 p => ls2.set p.1 p.2) ls

theorem applyAssignments_append (a b : List (ℕ × ℤ)) (ls : List ℤ) :
    applyAssignments (a ++ b) ls = applyAssignments b (applyAssignments a ls) :=
  List.foldl_append _ _ a b

theorem update_labels_eq (g : AnnotatedGraph) (ncn : List (ℕ × List ℕ)) :
    (g.update_community_nodes_membership ncn).labels
      = applyAssignments (labelAssignments ncn) g.labels := by
  show ncn.foldl (fun ls kv => kv.2.foldl (fun ls2 node => ls2.set node (kv.1 : ℤ)) ls)
        g.labels = applyAssignments (labelAssignments ncn) g.labels
  generalize g.labels = ls
  induction ncn generalizing ls with
  | nil => rfl
  | cons kv t ih =>
      have hc : labelAssignments (kv :: t)
          = kv.2.map (fun n => (n, (kv.1 : ℤ))) ++ labelAssignments t := by
        simp [labelAssignments]
      rw [List.foldl_cons, ih, hc, applyAssignments_append]
      congr 1
      simp [applyAssignments, List.foldl_map]

theorem getD_set_ne (ls : List ℤ) (m n : ℕ) (x d : ℤ) (h : m ≠ n) :
    (ls.set m x).getD n d = ls.getD n d := by
  induction ls generalizing m n with
  | nil => rfl
  | cons a t ih =>
      cases m with
      | zero =>
          cases n with
          | zero => exact absurd rfl h
          | succ n2 => rfl
      | succ m2 =>
          cases n with
          | zero => rfl
          | succ n2 => exact ih m2 n2 (fun e => h (by rw [e]))

theorem getD_set_self (ls : List ℤ) (n : ℕ) (x d : ℤ) (h : n < ls.length) :
    (ls.set n x).getD n d = x := by
  induction ls generalizing n with
  | nil => simp at h
  | cons a t ih =>
      cases n with
      | zero => rfl
      | succ n2 => exact ih n2 (Nat.lt_of_succ_lt_succ h)

theorem applyAssignments_getD_not_mem (l : List (ℕ × ℤ)) (ls : List ℤ) (n : ℕ) (d : ℤ)
    (h : ∀ p ∈ l, p.1 ≠ n) :
    (applyAssignments l ls).getD n d = ls.getD n d := by
  induction l generalizing ls with
  | nil => rfl
  | cons p t ih =>
      show (applyAssignments t (ls.set p.1 p.2)).getD n d = ls.getD n d
      rw [ih _ (fun q hq => h q (List.mem_cons_of_mem _ hq))]
      exact getD_set_ne _ _ _ _ _ (h p (List.mem_cons_self p t))

theorem applyAssignments_length (l : List (ℕ × ℤ)) (ls : List ℤ) :
    (applyAssignments l ls).length = ls.length := by
  induction l generalizing ls with
  | nil => rfl
  | cons p t ih =>
      show (applyAssignments t (ls.set p.1 p.2)).length = ls.length
      rw [ih, List.length_set]

theorem applyAssignments_getD_mem (l : List (ℕ × ℤ)) (ls : List ℤ) (n : ℕ) (k d : ℤ)
    (hnd : (l.map Prod.fst).Nodup) (hmem : (n, k) ∈ l) (hlt : n < ls.length) :
    (applyAssignments l ls).getD n d = k := by
  induction l generalizing ls with
  | nil => simp at hmem
  | cons p t ih =>
      have hnd2 : p.1 ∉ t.map Prod.fst ∧ (t.map Prod.fst).Nodup := by
        rw [List.map_cons] at hnd
        exact List.nodup_cons.mp hnd
      rcases List.mem_cons.mp hmem with he | ht
      · have hp1 : p.1 = n := by rw [← he]
        have hn : ∀ q ∈ t, q.1 ≠ n := by
          intro q hq he2
          exact hnd2.1 (by rw [hp1, ← he2]; exact List.mem_map_of_mem Prod.fst hq)
        show (applyAssignments t (ls.set p.1 p.2)).getD n d = k
        rw [applyAssignments_getD_not_mem _ _ _ _ hn, ← he]
        exact getD_set_self _ _ _ _ hlt
      · show (applyAssignments t (ls.set p.1 p.2)).getD n d = k
        exact ih (ls.set p.1 p.2) hnd2.2 ht (by rw [List.length_set]; exact hlt)

theorem labelAssignments_map_fst (ncn : List (ℕ × List ℕ)) :
    (labelAssignments ncn).map Prod.fst = ncn.flatMap (fun kv => kv.2) := by
  induction ncn with
  | nil => rfl
  | cons kv t ih =>
      have hc : labelAssignments (kv :: t)
          = kv.2.map (fun n => (n, (kv.1 : ℤ))) ++ labelAssignments t := by
        simp [labelAssignments]
      rw [hc, List.flatMap_cons, List.map_append, ih, List.map_map]
      congr 1
      have hid : (Prod.fst ∘ fun n : ℕ => (n, (kv.1 : ℤ))) = id := rfl
      rw [hid, List.map_id]

/-- Claim C7 amended: after `update_community_nodes_membership` with a
mapping whose node lists are pairwise disjoint and in range, every node
mentioned in some cluster has its label set to that cluster's id (hence
label ≥ 0); a node NOT mentioned in the new mapping keeps its previous
label (which is -1 only if it was never labeled before - the source never
resets old labels). -/
theorem claim7_thm (g : AnnotatedGraph) (ncn : List (ℕ × List ℕ))
    (hnd : (ncn.flatMap (fun kv => kv.2)).Nodup)
    (hlen : ∀ kv ∈ ncn, ∀ n ∈ kv.2, n < g.labels.length) :
    (∀ kv ∈ ncn, ∀ n ∈ kv.2,
        (g.update_community_nodes_membership ncn).labels.getD n (-1) = (kv.1 : ℤ) ∧
        0 ≤ (g.update_community_nodes_membership ncn).labels.getD n (-1)) ∧
    (∀ n : ℕ, (∀ kv ∈ ncn, n ∉ kv.2) →
        (g.update_community_nodes_membership ncn).labels.getD n (-1)
          = g.labels.getD n (-1)) := by
  constructor
  · intro kv hkv n hn
    have hmem : (n, (kv.1 : ℤ)) ∈ labelAssignments ncn := by
      simp only [labelAssignments, List.mem_flatMap]
      exact ⟨kv, hkv, List.mem_map_of_mem _ hn⟩
    have heq : (g.update_community_nodes_membership ncn).labels.getD n (-1) = (kv.1 : ℤ) := by
      rw [update_labels_eq]
      exact applyAssignments_getD_mem _ _ _ _ _
        (by rw [labelAssignments_map_fst]; exact hnd) hmem (hlen kv hkv n hn)
    exact ⟨heq, by rw [heq]; exact Int.ofNat_nonneg kv.1⟩
  · intro n hnot
    rw [update_labels_eq]
    apply applyAssignments_getD_not_mem
    intro p hp
    simp only [labelAssignments, List.mem_flatMap, List.mem_map] at hp
    rcases hp with ⟨kv, hkv, m, hm, hpe⟩
    intro he
    exact hnot kv hkv (by rw [← hpe] at he; simpa [← he] using hm)

theorem claim7_thm_witness :
    (∀ kv ∈ ([(0,[1]),(1,[2])] : List (ℕ × List ℕ)), ∀ n ∈ kv.2,
        ((AnnotatedGraph.empty 3).update_community_nodes_membership
            [(0,[1]),(1,[2])]).labels.getD n (-1) = (kv.1 : ℤ) ∧
        0 ≤ ((AnnotatedGraph.empty 3).update_community_nodes_membership
            [(0,[1]),(1,[2])]).labels.getD n (-1)) ∧
    (∀ n : ℕ, (∀ kv ∈ ([(0,[1]),(1,[2])] : List (ℕ × List ℕ)), n ∉ kv.2) →
        ((AnnotatedGraph.empty 3).update_community_nodes_membership
            [(0,[1]),(1,[2])]).labels.getD n (-1)
          = (AnnotatedGraph.empty 3).labels.getD n (-1)) :=
  claim7_thm (AnnotatedGraph.empty 3) [(0,[1]),(1,[2])] (by decide) (by decide)

/-- Claim C7 counterexample: labels are never reset, so a node dropped
from the mapping keeps its stale label: after clustering {0,1} as cluster
0 and then re-clustering only {0}, node 1 is not mentioned in the new
mapping yet its label is 0, not -1. -/
theorem claim7_counter :
    ¬ (((AnnotatedGraph.empty 2).update_community_nodes_membership
          [(0,[0,1])]).update_community_nodes_membership [(0,[0])]).labels.getD 1 (-1)
        = -1 := by decide

/-- The weighted graph handed to the correlation clusterer
(`new_cluster_correlation_search.py`): a `networkx` graph with a node
list (in `G.nodes()` order) and undirected weighted edges, each pair
listed once; a `none` weight is NaN. -/
structure CGraph where
  nodes : List ℕ
  edges : List (ℕ × ℕ × Option ℚ)

/-- Adjacency of the graph restricted to its positive edges: exactly the
edges kept by `cluster_connected_components` and
`split_non_evidence_clusters` after removing every edge with
`weight < 0.0 or isnan(weight)`. -/
def posAdj (g : CGraph) (u v : ℕ) : Bool :=
  g.edges.any (fun e =>
    (((e.1 == u) && (e.2.1 == v)) || ((e.1 == v) && (e.2.1 == u))) &&
    (match e.2.2 with
     | some w => decide (0 ≤ w)
     | none => false))

theorem posAdj_symm (g : CGraph) (u v : ℕ) (h : posAdj g u v = true) :
    posAdj g v u = true := by
  rcases List.any_eq_true.mp h with ⟨e, he, hprop⟩
  apply List.any_eq_true.mpr
  refine ⟨e, he, ?_⟩
  rw [Bool.and_eq_true] at hprop ⊢
  exact ⟨Bool.or_comm _ _ ▸ hprop.1, hprop.2⟩

/-- One round of breadth-first expansion used to compute connected
components: add every node of `nodes` adjacent to the current set. -/
def ccStep (adj : ℕ → ℕ → Bool) (nodes : List ℕ) (s : Finset ℕ) : Finset ℕ :=
  s ∪ nodes.toFinset.filter (fun v => ∃ u ∈ s, adj u v = true)

/-- The connected component of `u`: expand `{u}` as many times as there
are nodes; by then the expansion has reached its fixed point. -/
def ccReach (adj : ℕ → ℕ → Bool) (nodes : List ℕ) (u : ℕ) : Finset ℕ :=
  (ccStep adj nodes)^[nodes.length] {u}

/-- Connected components of the graph `(nodes, adj)` in first-seen node
order, as computed by `nx.connected_components`.  (The source afterwards
sorts the component list by an arbitrary set element; that order is not
modelled and no claim depends on it.) -/
def ccList (adj : ℕ → ℕ → Bool) (nodes : List ℕ) : List (Finset ℕ) :=
  nodes.foldl
    (fun acc v => if acc.any (fun c => decide (v ∈ c)) then acc
      else acc ++ [ccReach adj nodes v])
    []

/-- `cluster_connected_components` (lines 131-147): connected components
after dropping negative and NaN edges. -/
def cluster_connected_components (g : CGraph) : List (Finset ℕ) :=
  ccList (posAdj g) g.nodes

/-- Reachability within the node set `s` along `adj`-edges: a path from
`u` to `v` all of whose nodes lie in `s`, i.e. connectivity inside the
subgraph induced on `s`. -/
inductive ReachIn (adj : ℕ → ℕ → Bool) (s : Finset ℕ) (u : ℕ) : ℕ → Prop
  | refl (hu : u ∈ s) : ReachIn adj s u u
  | tail {v w : ℕ} (h : ReachIn adj s u v) (hw : w ∈ s) (ha : adj v w = true) :
      ReachIn adj s u w

theorem ReachIn.mem_right {adj : ℕ → ℕ → Bool} {s : Finset ℕ} {u v : ℕ}
    (h : ReachIn adj s u v) : v ∈ s := by
  cases h with
  | refl hu => exact hu
  | tail _ hw _ => exact hw

theorem ReachIn.trans {adj : ℕ → ℕ → Bool} {s : Finset ℕ} {u v w : ℕ}
    (h1 : ReachIn adj s u v) (h2 : ReachIn adj s v w) : ReachIn adj s u w := by
  induction h2 with
  | refl _ => exact h1
  | tail _ hw ha ih => exact ReachIn.tail ih hw ha

theorem ReachIn.symm {adj : ℕ → ℕ → Bool} {s : Finset ℕ}
    (hadj : ∀ a b, adj a b = true → adj b a = true) {u v : ℕ}
    (h : ReachIn adj s u v) : ReachIn adj s v u := by
  induction h with
  | refl hu => exact ReachIn.refl hu
  | @tail a b h2 hw ha ih =>
      exact ReachIn.trans
        (ReachIn.tail (ReachIn.refl hw) h2.mem_right (hadj _ _ ha)) ih

theorem ReachIn.mono_adj {adj adj2 : ℕ → ℕ → Bool} {s : Finset ℕ}
    (hle : ∀ a b, adj a b = true → adj2 a b = true) {u v : ℕ}
    (h : ReachIn adj s u v) : ReachIn adj2 s u v := by
  induction h with
  | refl hu => exact ReachIn.refl hu
  | tail _ hw ha ih => exact ReachIn.tail ih hw (hle _ _ ha)

theorem ccStep_subset (adj : ℕ → ℕ → Bool) (nodes : List ℕ) (s : Finset ℕ) :
    s ⊆ ccStep adj nodes s :=
  Finset.subset_union_left

theorem ccStep_subset_union (adj : ℕ → ℕ → Bool) (nodes : List ℕ) (s : Finset ℕ) :
    ccStep adj nodes s ⊆ s ∪ nodes.toFinset :=
  Finset.union_subset_union_right (Finset.filter_subset _ _)

theorem ccStep_iterate_succ (adj : ℕ → ℕ → Bool) (nodes : List ℕ) (u : ℕ) (k : ℕ) :
    (ccStep adj nodes)^[k] {u} ⊆ (ccStep adj nodes)^[k+1] {u} := by
  rw [Function.iterate_succ_apply']
  exact ccStep_subset adj nodes _

theorem ccStep_iterate_le (adj : ℕ → ℕ → Bool) (nodes : List ℕ) (u : ℕ)
    {j k : ℕ} (h : j ≤ k) :
    (ccStep adj nodes)^[j] {u} ⊆ (ccStep adj nodes)^[k] {u} := by
  induction h with
  | refl => exact subset_rfl
  | step _ ih => exact ih.trans (ccStep_iterate_succ adj nodes u _)

theorem ccStep_iterate_subset (adj : ℕ → ℕ → Bool) (nodes : List ℕ) (u : ℕ) (k : ℕ) :
    (ccStep adj nodes)^[k] {u} ⊆ {u} ∪ nodes.toFinset := by
  induction k with
  | zero => exact Finset.subset_union_left
  | succ k ih =>
      rw [Function.iterate_succ_apply']
      intro x hx
      rcases Finset.mem_union.mp (ccStep_subset_union _ _ _ hx) with h | h
      · exact ih h
      · exact Finset.mem_union_right _ h

theorem ccReach_fixpoint (adj : ℕ → ℕ → Bool) (nodes : List ℕ) (u : ℕ)
    (hu : u ∈ nodes) :
    ccStep adj nodes (ccReach adj nodes u) = ccReach adj nodes u := by
  by_cases hex : ∃ k, k ≤ nodes.length ∧
      (ccStep adj nodes)^[k] {u} = (ccStep adj nodes)^[k+1] {u}
  · rcases hex with ⟨k, hk, heq⟩
    have hstab : ∀ m, k ≤ m →
        (ccStep adj nodes)^[m] {u} = (ccStep adj nodes)^[k] {u} := by
      intro m hm
      induction hm with
      | refl => rfl
      | step _ ih =>
          rw [Function.iterate_succ_apply', ih]
          conv_rhs => rw [heq]
          rw [Function.iterate_succ_apply']
    show ccStep adj nodes ((ccStep adj nodes)^[nodes.length] {u})
        = (ccStep adj nodes)^[nodes.length] {u}
    rw [hstab nodes.length hk]
    conv_rhs => rw [heq]
    rw [Function.iterate_succ_apply']
  · push_neg at hex
    exfalso
    have hgrow : ∀ k, k ≤ nodes.length → k + 1 ≤ ((ccStep adj nodes)^[k] {u}).card := by
      intro k
      induction k with
      | zero => intro _; simp
      | succ k ih =>
          intro hk
          have h1 := ih (Nat.le_of_succ_le hk)
          have hne := hex k (Nat.le_of_succ_le hk)
          have hss : (ccStep adj nodes)^[k] {u} ⊂ (ccStep adj nodes)^[k+1] {u} :=
            HasSubset.Subset.ssubset_of_ne (ccStep_iterate_succ adj nodes u k) hne
          exact Nat.succ_le_of_lt (Nat.lt_of_le_of_lt h1 (Finset.card_lt_card hss))
    have hb1 := hgrow nodes.length (le_refl _)
    have hsub : (ccStep adj nodes)^[nodes.length] {u} ⊆ nodes.toFinset := by
      have := ccStep_iterate_subset adj nodes u nodes.length
      rwa [Finset.union_eq_right.mpr
        (Finset.singleton_subset_iff.mpr (List.mem_toFinset.mpr hu))] at this
    have hb2 := Finset.card_le_card hsub
    have hb3 := List.toFinset_card_le nodes
    omega

theorem ccReach_closed (adj : ℕ → ℕ → Bool) (nodes : List ℕ) (u : ℕ)
    (hu : u ∈ nodes) (v w : ℕ) (hv : v ∈ ccReach adj nodes u) (hw : w ∈ nodes)
    (ha : adj v w = true) : w ∈ ccReach adj nodes u := by
  rw [← ccReach_fixpoint adj nodes u hu]
  exact Finset.mem_union_right _
    (Finset.mem_filter.mpr ⟨List.mem_toFinset.mpr hw, v, hv, ha⟩)

theorem mem_ccReach_self (adj : ℕ → ℕ → Bool) (nodes : List ℕ) (u : ℕ) :
    u ∈ ccReach adj nodes u :=
  ccStep_iterate_le adj nodes u (Nat.zero_le _) (Finset.mem_singleton_self u)

theorem ccReach_reachIn (adj : ℕ → ℕ → Bool) (nodes : List ℕ) (u : ℕ)
    (hu : u ∈ nodes) (x : ℕ) (hx : x ∈ ccReach adj nodes u) :
    ReachIn adj (ccReach adj nodes u) u x := by
  suffices h : ∀ k x, x ∈ (ccStep adj nodes)^[k] {u} →
      ReachIn adj (ccReach adj nodes u) u x from h nodes.length x hx
  intro k
  induction k with
  | zero =>
      intro x hx2
      rw [Function.iterate_zero_apply, Finset.mem_singleton] at hx2
      subst hx2
      exact ReachIn.refl (mem_ccReach_self adj nodes x)
  | succ k ih =>
      intro x hx2
      rw [Function.iterate_succ_apply'] at hx2
      rcases Finset.mem_union.mp hx2 with h | h
      · exact ih x h
      · rcases Finset.mem_filter.mp h with ⟨hxn, v, hv, ha⟩
        have hvr := ih v hv
        exact ReachIn.tail hvr
          (ccReach_closed adj nodes u hu v x hvr.mem_right
            (List.mem_toFinset.mp hxn) ha) ha

theorem ccReach_connected (adj : ℕ → ℕ → Bool) (nodes : List ℕ) (u : ℕ)
    (hu : u ∈ nodes) (hadj : ∀ a b, adj a b = true → adj b a = true)
    (x y : ℕ) (hx : x ∈ ccReach adj nodes u) (hy : y ∈ ccReach adj nodes u) :
    ReachIn adj (ccReach adj nodes u) x y :=
  ReachIn.trans ((ccReach_reachIn adj nodes u hu x hx).symm hadj)
    (ccReach_reachIn adj nodes u hu y hy)

theorem ccList_mem (adj : ℕ → ℕ → Bool) (nodes : List ℕ) (c : Finset ℕ)
    (hc : c ∈ ccList adj nodes) : ∃ u ∈ nodes, c = ccReach adj nodes u := by
  suffices h : ∀ (l : List ℕ) (acc : List (Finset ℕ)),
      c ∈ l.foldl (fun acc v => if acc.any (fun c2 => decide (v ∈ c2)) then acc
        else acc ++ [ccReach adj nodes v]) acc →
      c ∈ acc ∨ ∃ u ∈ l, c = ccReach adj nodes u by
    rcases h nodes [] hc with h2 | h2
    · simp at h2
    · exact h2
  intro l
  induction l with
  | nil => intro acc hacc; exact Or.inl hacc
  | cons v t ih =>
      intro acc hacc
      rw [List.foldl_cons] at hacc
      rcases ih _ hacc with h2 | h2
      · by_cases hv : acc.any (fun c2 => decide (v ∈ c2))
        · rw [if_pos hv] at h2
          exact Or.inl h2
        · rw [if_neg hv] at h2
          rcases List.mem_append.mp h2 with h3 | h3
          · exact Or.inl h3
          · rcases List.mem_singleton.mp h3 with h4
            exact Or.inr ⟨v, List.mem_cons_self v t, h4⟩
      · rcases h2 with ⟨u, hu, he⟩
        exact Or.inr ⟨u, List.mem_cons_of_mem v hu, he⟩

/-- Positive adjacency restricted to a cluster: the adjacency of
`G.subgraph(cluster)` after removal of negative and NaN edges. -/
def inducedPosAdj (g : CGraph) (c : Finset ℕ) (u v : ℕ) : Bool :=
  posAdj g u v && decide (u ∈ c) && decide (v ∈ c)

/-- The positive-connected components of one cluster:
`cluster_connected_components(G.subgraph(cluster))` as called in
`split_non_evidence_clusters`; the subgraph's nodes are the cluster's
nodes that exist in `G`, in `G.nodes()` order. -/
def splitCluster (g : CGraph) (c : Finset ℕ) : List (Finset ℕ) :=
  ccList (inducedPosAdj g c) (g.nodes.filter (fun x => decide (x ∈ c)))

/-- `split_non_evidence_clusters` (lines 150-181): split every cluster
into its positive-connected components, then check that the node set and
the node count are preserved; on violation the source calls `sys.exit`,
modelled as `none`. -/
def split_non_evidence_clusters (g : CGraph) (clusters : List (Finset ℕ)) :
    Option (List (Finset ℕ)) :=
  let classes_out := clusters.flatMap (splitCluster g)
  let nodes_in : Multiset ℕ := (clusters.map Finset.val).sum
  let nodes_out : Multiset ℕ := (classes_out.map Finset.val).sum
  if nodes_in.toFinset = nodes_out.toFinset ∧ Multiset.card nodes_in = Multiset.card nodes_out
  then some classes_out else none

theorem inducedPosAdj_symm (g : CGraph) (c : Finset ℕ) (u v : ℕ)
    (h : inducedPosAdj g c u v = true) : inducedPosAdj g c v u = true := by
  simp only [inducedPosAdj, Bool.and_eq_true] at h ⊢
  exact ⟨⟨posAdj_symm g u v h.1.1, h.2⟩, h.1.2⟩

theorem inducedPosAdj_le_posAdj (g : CGraph) (c : Finset ℕ) (u v : ℕ)
    (h : inducedPosAdj g c u v = true) : posAdj g u v = true := by
  simp only [inducedPosAdj, Bool.and_eq_true] at h
  exact h.1.1

/-- Every component produced by `splitCluster` is internally connected
through positive edges: any two of its nodes are joined by a positive
path that stays inside the component. -/
theorem splitCluster_connected (g : CGraph) (cl c : Finset ℕ)
    (hc : c ∈ splitCluster g cl) (x : ℕ) (hx : x ∈ c) (y : ℕ) (hy : y ∈ c) :
    ReachIn (posAdj g) c x y := by
  rcases ccList_mem _ _ _ hc with ⟨u, hu, he⟩
  subst he
  exact ReachIn.mono_adj (inducedPosAdj_le_posAdj g cl)
    (ccReach_connected _ _ u hu (inducedPosAdj_symm g cl) x y hx hy)

theorem sum_val_toFinset (l : List (Finset ℕ)) :
    ((l.map Finset.val).sum).toFinset = l.foldr (fun c acc => c ∪ acc) ∅ := by
  induction l with
  | nil => rfl
  | cons c t ih =>
      rw [List.map_cons, List.sum_cons, Multiset.toFinset_add, ih, List.foldr_cons]
      congr 1
      exact Finset.val_toFinset c

/-- Claim C4 amended: whenever `split_non_evidence_clusters` returns (is
not a fatal abort), every returned cluster is connected through positive
edges, and the union of nodes over the returned clusters equals the
union over the pre-split clusters; a violation of the node-set equality
makes the function abort (`sys.exit`, modelled as `none`) instead of
returning.  (The clusterer invokes this split only when the initial loss
is nonzero; see the counterexample for the zero-loss path.) -/
theorem claim4_thm (g : CGraph) (clusters out : List (Finset ℕ))
    (h : split_non_evidence_clusters g clusters = some out) :
    (∀ c ∈ out, ∀ x ∈ c, ∀ y ∈ c, ReachIn (posAdj g) c x y) ∧
    (out.foldr (fun c acc => c ∪ acc) ∅ = clusters.foldr (fun c acc => c ∪ acc) ∅) ∧
    (∀ clusters2 : List (Finset ℕ),
        ((clusters2.map Finset.val).sum).toFinset
            ≠ (((clusters2.flatMap (splitCluster g)).map Finset.val).sum).toFinset →
        split_non_evidence_clusters g clusters2 = none) := by
  unfold split_non_evidence_clusters at h
  by_cases hg : ((clusters.map Finset.val).sum : Multiset ℕ).toFinset
        = (((clusters.flatMap (splitCluster g)).map Finset.val).sum : Multiset ℕ).toFinset ∧
      Multiset.card ((clusters.map Finset.val).sum : Multiset ℕ)
        = Multiset.card (((clusters.flatMap (splitCluster g)).map Finset.val).sum : Multiset ℕ)
  · rw [if_pos hg] at h
    have hout : out = clusters.flatMap (splitCluster g) := (Option.some_inj.mp h).symm
    refine ⟨?_, ?_, ?_⟩
    · intro c hc x hx y hy
      rw [hout] at hc
      rcases List.mem_flatMap.mp hc with ⟨cl, _, hc2⟩
      exact splitCluster_connected g cl c hc2 x hx y hy
    · rw [hout, ← sum_val_toFinset, ← sum_val_toFinset]
      exact hg.1.symm
    · intro clusters2 hne
      unfold split_non_evidence_clusters
      rw [if_neg (fun hp => hne hp.1)]
  · rw [if_neg hg] at h
    exact absurd h (Option.noConfusion)

theorem claim4_thm_witness :
    (∀ c ∈ [({0,1,2} : Finset ℕ), {3}], ∀ x ∈ c, ∀ y ∈ c,
        ReachIn (posAdj ⟨[0,1,2,3], [(0,1,some 1),(1,2,some 1)]⟩) c x y) ∧
    (([({0,1,2} : Finset ℕ), {3}]).foldr (fun c acc => c ∪ acc) ∅
        = ([({0,1,2,3} : Finset ℕ)]).foldr (fun c acc => c ∪ acc) ∅) ∧
    (∀ clusters2 : List (Finset ℕ),
        ((clusters2.map Finset.val).sum).toFinset
            ≠ (((clusters2.flatMap
                (splitCluster ⟨[0,1,2,3], [(0,1,some 1),(1,2,some 1)]⟩)).map
                  Finset.val).sum).toFinset →
        split_non_evidence_clusters ⟨[0,1,2,3], [(0,1,some 1),(1,2,some 1)]⟩ clusters2
          = none) :=
  claim4_thm ⟨[0,1,2,3], [(0,1,some 1),(1,2,some 1)]⟩ [{0,1,2,3}] [{0,1,2}, {3}]
    (by decide)

/-- `n2i`: index of a node in `G.nodes()` order (line 44). -/
def n2i (g : CGraph) (x : ℕ) : ℕ := g.nodes.indexOf x

/-- `i2n`: node at a given index of `G.nodes()` (line 45). -/
def i2n (g : CGraph) (i : ℕ) : ℕ := g.nodes.getD i 0

/-- The cluster index assigned to a node by the `n2c` dict comprehension
(lines 46-47): later clusters overwrite earlier ones, so it is the LAST
cluster of `classes` containing the node. -/
def nodeClusterIdx (classes : List (Finset ℕ)) (x : ℕ) : Option ℕ :=
  match classes.reverse.findIdx? (fun c => decide (x ∈ c)) with
  | some j => some (classes.length - 1 - j)
  | none => none

/-- `init_state` (line 63): the cluster indices of the nodes that occur
in `classes`, listed by ascending node index (`sorted(n2c.keys())`). -/
def initState (g : CGraph) (classes : List (Finset ℕ)) : List ℕ :=
  (List.range g.nodes.length).filterMap (fun i => nodeClusterIdx classes (i2n g i))

/-- `edges_positive` (lines 49-50): index pairs and weights of the edges
with weight `≥ 0`; NaN weights satisfy neither comparison and land in
neither list. -/
def edges_positive (g : CGraph) : List (ℕ × ℕ × ℚ) :=
  g.edges.filterMap (fun e =>
    match e.2.2 with
    | some w => if 0 ≤ w then some (n2i g e.1, n2i g e.2.1, w) else none
    | none => none)

/-- `edges_negative` (lines 51-52): the edges with weight `< 0`. -/
def edges_negative (g : CGraph) : List (ℕ × ℕ × ℚ) :=
  g.edges.filterMap (fun e =>
    match e.2.2 with
    | some w => if w < 0 then some (n2i g e.1, n2i g e.2.1, w) else none
    | none => none)

/-- `conflict_loss` (lines 54-60): the weight of positive edges cut by
the assignment plus the absolute weight of negative edges kept inside a
cluster. -/
def conflict_loss (g : CGraph) (state : List ℕ) : ℚ :=
  (((edges_positive g).filter
      (fun t => decide (state.getD t.1 0 ≠ state.getD t.2.1 0))).map
    (fun t => t.2.2)).sum +
  (((edges_negative g).filter
      (fun t => decide (state.getD t.1 0 = state.getD t.2.1 0))).map
    (fun t => |t.2.2|)).sum

/-- Stable insertion used to model Python's stable
`classes.sort(key=lambda x: -len(x))`: insert before the first cluster of
size at most the inserted one. -/
def insertBySize (a : Finset ℕ) : List (Finset ℕ) → List (Finset ℕ)
  | [] => [a]
  | b :: l => if b.card ≤ a.card then a :: b :: l else b :: insertBySize a l

/-- Stable sort of clusters by size, descending (lines 68 and 123). -/
def sortBySizeDesc (l : List (Finset ℕ)) : List (Finset ℕ) :=
  l.foldr insertBySize []

/-- Oracle for the `mlrose` simulated-annealing calls and the random
tie-break of the final selection: `anneal maxVal init` is the best state
found by one annealing run (`init = none` for the run without initial
state), `pickIdx k` models `np.random.choice(range(k))`. -/
structure AnnealOracle where
  anneal : ℕ → Option (List ℕ) → List ℕ
  pickIdx : ℕ → ℕ

/-- Reconstruction of clusters from a state vector (lines 113-117):
cluster values in order of first occurrence, each mapped to the set of
its nodes. -/
def groupClusters (g : CGraph) (state : List ℕ) : List (Finset ℕ) :=
  (state.foldl (fun acc c => if c ∈ acc then acc else acc ++ [c]) []).map
    (fun c =>
      (((List.range state.length).filter (fun i => decide (state.getD i 0 = c))).map
        (i2n g)).toFinset)

/-- The initial clustering of `cluster_correlation_search` (lines 38-41):
connected components unless an initial clustering is provided. -/
def ccsClasses (g : CGraph) (initial : List (Finset ℕ)) : List (Finset ℕ) :=
  if initial = [] then cluster_connected_components g else initial

/-- The simulated-annealing branch of `cluster_correlation_search`
(lines 73-128): for `n = 2..s-1` record two annealing results (one seeded
with the initial state, one from a random state), pick a minimum-loss
entry (random tie-break via `pickIdx`), rebuild clusters from its state,
optionally split non-evidence clusters, and sort by size. -/
def ccsAnnealPath (o : AnnealOracle) (g : CGraph) (s : ℕ)
    (initial : List (Finset ℕ)) (split_flag : Bool) : Option (List (Finset ℕ)) :=
  let classes := ccsClasses g initial
  let init_state := initState g classes
  let loss_init := conflict_loss g init_state
  let entries := (init_state, loss_init) ::
    (List.range' 2 (s - 2)).flatMap (fun n =>
      let st1 := o.anneal (max n classes.length) (some init_state)
      let st2 := o.anneal n none
      [(st1, conflict_loss g st1), (st2, conflict_loss g st2)])
  let minLoss := (entries.map (fun e => e.2)).foldr min loss_init
  let ties := entries.filter (fun e => decide (e.2 = minLoss))
  let best := (ties.getD (o.pickIdx ties.length) (init_state, loss_init)).1
  let classes2 := groupClusters g best
  if split_flag then (split_non_evidence_clusters g classes2).map sortBySizeDesc
  else some (sortBySizeDesc classes2)

/-- `cluster_correlation_search` (lines 22-128): if the loss of the
initial assignment is zero, return the initial clustering sorted by size
(lines 66-71) — the annealing path is never entered; otherwise run the
annealing path.  (The returned `stats` dict only carries the runtime and
is not modelled.) -/
def cluster_correlation_search (o : AnnealOracle) (g : CGraph) (s : ℕ)
    (initial : List (Finset ℕ)) (split_flag : Bool) : Option (List (Finset ℕ)) :=
  if conflict_loss g (initState g (ccsClasses g initial)) = 0 then
    some (sortBySizeDesc (ccsClasses g initial))
  else ccsAnnealPath o g s initial split_flag

/-- Claim C3: for every annealing oracle (hence independently of any
simulated annealing), if the initial assignment has zero conflict loss,
the clusterer returns the initial clustering unchanged except for the
descending sort by cluster size. -/
theorem claim3_thm (o : AnnealOracle) (g : CGraph) (s : ℕ)
    (initial : List (Finset ℕ)) (split_flag : Bool)
    (h : conflict_loss g (initState g (ccsClasses g initial)) = 0) :
    cluster_correlation_search o g s initial split_flag
      = some (sortBySizeDesc (ccsClasses g initial)) := by
  unfold cluster_correlation_search
  rw [if_pos h]

theorem claim3_thm_witness :
    cluster_correlation_search ⟨fun _ _ => [], fun _ => 0⟩
        ⟨[0,1], [(0,1,some 1)]⟩ 10 [{0,1}] true
      = some (sortBySizeDesc (ccsClasses ⟨[0,1], [(0,1,some 1)]⟩ [{0,1}])) :=
  claim3_thm ⟨fun _ _ => [], fun _ => 0⟩ ⟨[0,1], [(0,1,some 1)]⟩ 10 [{0,1}] true
    (by show ((([] : List (ℕ × ℕ × ℚ)).map (fun t => t.2.2)).sum +
          (([] : List (ℕ × ℕ × ℚ)).map (fun t => |t.2.2|)).sum : ℚ) = 0
        norm_num)

theorem ReachIn.exists_adj {adj : ℕ → ℕ → Bool} {s : Finset ℕ} {u v : ℕ}
    (h : ReachIn adj s u v) (hne : u ≠ v) : ∃ a b, adj a b = true := by
  cases h with
  | refl _ => exact absurd rfl hne
  | tail _ _ ha => exact ⟨_, _, ha⟩

/-- Claim C4 counterexample: with the split flag enabled, a zero-loss
initial clustering is returned WITHOUT running the split: on the edgeless
graph over {0,1} with supplied initial clustering {{0,1}}, the clusterer
returns {{0,1}} although the subgraph of positive edges on {0,1} is
disconnected — so the connectivity invariant claimed for every run with
the split flag does not hold. -/
theorem claim4_counter :
    cluster_correlation_search ⟨fun _ _ => [], fun _ => 0⟩ ⟨[0,1], []⟩ 10 [{0,1}] true
      = some [{0,1}] ∧
    ¬ (∀ c ∈ [({0,1} : Finset ℕ)], ∀ x ∈ c, ∀ y ∈ c,
        ReachIn (posAdj ⟨[0,1], []⟩) c x y) := by
  constructor
  · unfold cluster_correlation_search
    rw [if_pos]
    · rfl
    · show ((([] : List (ℕ × ℕ × ℚ)).map (fun t => t.2.2)).sum +
          (([] : List (ℕ × ℕ × ℚ)).map (fun t => |t.2.2|)).sum : ℚ) = 0
      norm_num
  · intro hall
    have h01 := hall {0,1} (List.mem_singleton_self _) 0 (by decide) 1 (by decide)
    rcases h01.exists_adj (by norm_num) with ⟨a, b, hab⟩
    simp [posAdj] at hab

/-- The ground-truth graph as seen by the sampler: node list and edge
lookup.  Modelled from the spec: the concrete `BaseGraph`/true-graph
class is not under `src/`; per the spec `getEdge` returns the
deterministic true weight or `None`. -/
structure TrueGraph where
  nodes : List ℕ
  w : ℕ → ℕ → Option ℚ

/-- Oracle for the sampler's randomness: `startNode` models the initial
`random.choice(nodes)` of the exploration walk, `pick k cand` the walk's
step choice, `select l k` models `np.random.choice(l, k, replace=False)`,
`choose n cl` the `random.choice(cluster)` of the combination phase, and
`samplePair` the `random.sample(nodes, 2)` of `random_sampling`. -/
structure SampleRng where
  startNode : List ℕ → ℕ
  pick : ℕ → List ℕ → ℕ
  select : List ℕ → ℕ → List ℕ
  choose : ℕ → List ℕ → ℕ
  samplePair : ℕ → List ℕ → ℕ × ℕ

/-- Python's `round`: half-to-even rounding of a rational. -/
def pyround (q : ℚ) : ℤ :=
  if q - ⌊q⌋ < 1/2 then ⌊q⌋
  else if 1/2 < q - ⌊q⌋ then ⌊q⌋ + 1
  else if ⌊q⌋ % 2 = 0 then ⌊q⌋ else ⌊q⌋ + 1

/-- The node-count parameter (lines 33 and 66): the parameter itself when
`num_flag` is set (it is an integer then), otherwise
`round(number_of_nodes * fraction)`. -/
def numNodesParam (sg : TrueGraph) (percentage_nodes : ℚ) (num_flag : Bool) : ℕ :=
  if num_flag then (⌊percentage_nodes⌋).toNat
  else (pyround ((sg.nodes.length : ℚ) * percentage_nodes)).toNat

/-- Number of iterations of the `while len(sampled_edge_list) < max_edges`
walk loop: one edge is appended per iteration, so it runs `⌈max_edges⌉`
times (0 when `max_edges ≤ 0`). -/
def explorationBudget (max_edges : ℚ) : ℕ := (Int.ceil max_edges).toNat

/-- The body of the exploration walk (lines 113-120): pick the next node
uniformly from the walk's node pool minus the current node (`np.delete`),
emit the edge with its true weight, move on. -/
def exploreGo (rng : SampleRng) (sgw : ℕ → ℕ → Option ℚ) (nodes : List ℕ)
    (last : ℕ) : ℕ → List (ℕ × ℕ × Option ℚ)
  | 0 => []
  | k + 1 =>
      (last, rng.pick k (nodes.filter (fun x => decide (x ≠ last))),
        sgw last (rng.pick k (nodes.filter (fun x => decide (x ≠ last))))) ::
      exploreGo rng sgw nodes (rng.pick k (nodes.filter (fun x => decide (x ≠ last)))) k

/-- `_exploration_phase` (lines 108-121): nothing on fewer than two
nodes, otherwise a self-avoiding-step random walk until `max_edges`
edges are emitted. -/
def exploration_phase (rng : SampleRng) (sgw : ℕ → ℕ → Option ℚ) (nodes : List ℕ)
    (max_edges : ℚ) : List (ℕ × ℕ × Option ℚ) :=
  if nodes.length = 0 ∨ nodes.length = 1 then []
  else exploreGo rng sgw nodes (rng.startNode nodes) (explorationBudget max_edges)

/-- The node selection of `_z_sampling_round` (lines 33-38):
`np.random.choice(nodes, number_nodes, replace=False)`, falling back to
all nodes when the draw is impossible (`ValueError`). -/
def zSelectNodes (rng : SampleRng) (sg : TrueGraph) (percentage_nodes : ℚ)
    (num_flag : Bool) : List ℕ :=
  if numNodesParam sg percentage_nodes num_flag ≤ sg.nodes.length then
    rng.select sg.nodes (numNodesParam sg percentage_nodes num_flag)
  else sg.nodes

/-- `_z_sampling_round` (lines 32-42): the initial exploration round on a
random node subset. -/
def z_sampling_round (rng : SampleRng) (sg : TrueGraph)
    (percentage_nodes percentage_edges : ℚ) (num_flag : Bool) :
    List (ℕ × ℕ × Option ℚ) :=
  exploration_phase rng sg.w (zSelectNodes rng sg percentage_nodes num_flag)
    (if num_flag then percentage_edges
     else ((zSelectNodes rng sg percentage_nodes num_flag).length : ℚ) *
       (((zSelectNodes rng sg percentage_nodes num_flag).length : ℚ) - 1) * (1/2) *
       percentage_edges)

/-- `_check_node_cluster_con` (lines 99-105): the node counts as
connected to the cluster when `get_edge` of the annotated graph returns
non-`None` for some cluster member (the pair is sorted before lookup,
which `get_edge` does internally as well). -/
def check_node_cluster_con (g : AnnotatedGraph) (node : ℕ) (cluster : List ℕ) : Bool :=
  cluster.any (fun c => (g.get_edge node c).isSome)

/-- The nodes of communities smaller than `min_size_mc` (line 47), in
dict order. -/
def smallClusterNodes (g : AnnotatedGraph) (m : ℕ) : List ℕ :=
  (g.get_community_nodes.filter (fun kv => decide (kv.2.length < m))).flatMap
    (fun kv => kv.2)

/-- The communities of size at least `min_size_mc` (line 48). -/
def multiClusters (g : AnnotatedGraph) (m : ℕ) : List (List ℕ) :=
  (g.get_community_nodes.filter (fun kv => decide (m ≤ kv.2.length))).map
    (fun kv => kv.2)

/-- The loop of lines 54-62: a small-cluster node goes to the combination
list when some multi-cluster is not yet connected to it, otherwise to the
exploration list. -/
def partitionSmall (g : AnnotatedGraph) (m : ℕ) : List ℕ × List ℕ :=
  (smallClusterNodes g m).foldl
    (fun acc node =>
      if (multiClusters g m).any (fun cluster => ! check_node_cluster_con g node cluster)
      then (acc.1 ++ [node], acc.2)
      else (acc.1, acc.2 ++ [node]))
    ([], [])

/-- `_combination_phase` (lines 84-96): for every node and every
multi-cluster not yet connected to it, emit one edge to a random member
of that cluster. -/
def combination_phase (rng : SampleRng) (sg : TrueGraph) (g : AnnotatedGraph)
    (nodes : List ℕ) (multi_clusters : List (List ℕ)) : List (ℕ × ℕ × Option ℚ) :=
  if nodes = [] then []
  else nodes.foldl
    (fun acc node => multi_clusters.foldl
      (fun acc2 cluster =>
        if check_node_cluster_con g node cluster then acc2
        else acc2 ++
          [(node, rng.choose node cluster, sg.w node (rng.choose node cluster))])
      acc)
    []

/-- `_n_sampling_round` (lines 45-81): partition the small-cluster nodes,
draw fresh nodes from those not yet in the annotated graph (capped at
availability), run the combination phase on combination plus fresh nodes
and the exploration phase on the exploration nodes. -/
def n_sampling_round (rng : SampleRng) (sg : TrueGraph) (g : AnnotatedGraph) (m : ℕ)
    (percentage_nodes percentage_edges : ℚ) (num_flag : Bool) :
    List (ℕ × ℕ × Option ℚ) :=
  combination_phase rng sg g
    ((partitionSmall g m).1 ++
      (if numNodesParam sg percentage_nodes num_flag ≤
          (sg.nodes.filter (fun x => decide (x ∉ g.gnodes))).length then
        rng.select (sg.nodes.filter (fun x => decide (x ∉ g.gnodes)))
          (numNodesParam sg percentage_nodes num_flag)
      else sg.nodes.filter (fun x => decide (x ∉ g.gnodes))))
    (multiClusters g m) ++
  exploration_phase rng sg.w (partitionSmall g m).2
    (if num_flag then percentage_edges
     else (((partitionSmall g m).2.length : ℚ) *
       (((partitionSmall g m).2.length : ℚ) - 1) * (1/2) * percentage_edges))

/-- `random_sampling` (`sampling_strategy.py` lines 18-42): `sample_size`
random sorted pairs with their true weights. -/
def random_sampling (rng : SampleRng) (sg : TrueGraph) (sample_size : ℕ) :
    List (ℕ × ℕ × Option ℚ) :=
  (List.range sample_size).map (fun i =>
    (min (rng.samplePair i sg.nodes).1 (rng.samplePair i sg.nodes).2,
     max (rng.samplePair i sg.nodes).1 (rng.samplePair i sg.nodes).2,
     sg.w (min (rng.samplePair i sg.nodes).1 (rng.samplePair i sg.nodes).2)
       (max (rng.samplePair i sg.nodes).1 (rng.samplePair i sg.nodes).2)))

/-- `dwug_sampling` (lines 8-29): initial round when the annotated graph
has no edges, otherwise a normal round with random fallback on an empty
result. -/
def dwug_sampling (rng : SampleRng) (sg : TrueGraph) (g : AnnotatedGraph)
    (percentage_nodes percentage_edges : ℚ) (min_size_mc : ℕ) (num_flag : Bool)
    (random_sample_empty_round : ℕ) : List (ℕ × ℕ × Option ℚ) :=
  if g.get_number_edges = 0 then
    z_sampling_round rng sg percentage_nodes percentage_edges num_flag
  else if (n_sampling_round rng sg g min_size_mc percentage_nodes percentage_edges
        num_flag).length = 0 ∧ 0 < random_sample_empty_round then
    random_sampling rng sg random_sample_empty_round
  else n_sampling_round rng sg g min_size_mc percentage_nodes percentage_edges num_flag

theorem exploreGo_length (rng : SampleRng) (sgw : ℕ → ℕ → Option ℚ) (nodes : List ℕ)
    (last k : ℕ) : (exploreGo rng sgw nodes last k).length = k := by
  induction k generalizing last with
  | zero => rfl
  | succ k ih => simp [exploreGo, ih]

theorem filter_ne_nonempty (nodes : List ℕ) (hnd : nodes.Nodup)
    (h2 : 2 ≤ nodes.length) (last : ℕ) :
    nodes.filter (fun x => decide (x ≠ last)) ≠ [] := by
  match nodes, hnd, h2 with
  | a :: b :: t, hnd, _ =>
      have hab : a ≠ b := by
        intro he
        exact (List.nodup_cons.mp hnd).1 (he ▸ List.mem_cons_self b t)
      intro hemp
      by_cases ha : a = last
      · have hb : b ∈ (a :: b :: t).filter (fun x => decide (x ≠ last)) :=
          List.mem_filter.mpr ⟨List.mem_cons_of_mem a (List.mem_cons_self b t),
            by simp [ha ▸ (Ne.symm hab)]⟩
        rw [hemp] at hb
        exact absurd hb (List.not_mem_nil b)
      · have ha2 : a ∈ (a :: b :: t).filter (fun x => decide (x ≠ last)) :=
          List.mem_filter.mpr ⟨List.mem_cons_self a (b :: t), by simp [ha]⟩
        rw [hemp] at ha2
        exact absurd ha2 (List.not_mem_nil a)

theorem exploreGo_mem (rng : SampleRng) (sgw : ℕ → ℕ → Option ℚ) (nodes : List ℕ)
    (hpick : ∀ k l, l ≠ [] → rng.pick k l ∈ l)
    (hnd : nodes.Nodup) (h2 : 2 ≤ nodes.length) (k last : ℕ) (hlast : last ∈ nodes) :
    ∀ e ∈ exploreGo rng sgw nodes last k, e.1 ∈ nodes ∧ e.2.1 ∈ nodes := by
  induction k generalizing last with
  | zero => intro e he; simp [exploreGo] at he
  | succ k ih =>
      intro e he
      have hnxt : rng.pick k (nodes.filter (fun x => decide (x ≠ last))) ∈ nodes :=
        List.mem_filter.mp
          (hpick k _ (filter_ne_nonempty nodes hnd h2 last)) |>.1
      rcases List.mem_cons.mp he with he1 | he2
      · subst he1
        exact ⟨hlast, hnxt⟩
      · exact ih _ hnxt e he2

theorem exploration_phase_spec (rng : SampleRng) (sgw : ℕ → ℕ → Option ℚ)
    (nodes : List ℕ) (max_edges : ℚ)
    (hpick : ∀ k l, l ≠ [] → rng.pick k l ∈ l)
    (hstart : ∀ l, l ≠ [] → rng.startNode l ∈ l)
    (hnd : nodes.Nodup) (h2 : 2 ≤ nodes.length) :
    (exploration_phase rng sgw nodes max_edges).length = explorationBudget max_edges ∧
    ∀ e ∈ exploration_phase rng sgw nodes max_edges, e.1 ∈ nodes ∧ e.2.1 ∈ nodes := by
  have hne : nodes ≠ [] := by
    intro he
    rw [he] at h2
    exact absurd h2 (by norm_num)
  have hcond : ¬ (nodes.length = 0 ∨ nodes.length = 1) := by omega
  constructor
  · rw [exploration_phase, if_neg hcond]
    exact exploreGo_length rng sgw nodes _ _
  · rw [exploration_phase, if_neg hcond]
    exact exploreGo_mem rng sgw nodes hpick hnd h2 _ _ (hstart nodes hne)

theorem zSelectNodes_nodup (rng : SampleRng) (sg : TrueGraph)
    (percentage_nodes : ℚ) (num_flag : Bool)
    (hsel : ∀ (l : List ℕ) (k : ℕ), k ≤ l.length → l.Nodup →
      (rng.select l k).length = k ∧ rng.select l k ⊆ l ∧ (rng.select l k).Nodup)
    (hV : sg.nodes.Nodup) :
    (zSelectNodes rng sg percentage_nodes num_flag).Nodup ∧
    zSelectNodes rng sg percentage_nodes num_flag ⊆ sg.nodes := by
  unfold zSelectNodes
  by_cases hc : numNodesParam sg percentage_nodes num_flag ≤ sg.nodes.length
  · rw [if_pos hc]
    exact ⟨(hsel sg.nodes _ hc hV).2.2, (hsel sg.nodes _ hc hV).2.1⟩
  · rw [if_neg hc]
    exact ⟨hV, fun x hx => hx⟩

/-- Claim C5 amended: on an empty annotated graph the DWUG sampler runs
the initial exploration round; whenever at least two nodes are selected
it emits exactly `⌈edgesToDraw⌉` edges — with NO cap at the
complete-subgraph edge count of the selected nodes (edges of the walk
may repeat) — and every emitted edge has both endpoints among the
selected nodes.  (With fewer than two selected nodes it emits nothing.) -/
theorem claim5_thm (rng : SampleRng) (sg : TrueGraph) (g : AnnotatedGraph)
    (percentage_nodes percentage_edges : ℚ) (num_flag : Bool) (m rs : ℕ)
    (hempty : g.get_number_edges = 0)
    (hpick : ∀ k l, l ≠ [] → rng.pick k l ∈ l)
    (hstart : ∀ l, l ≠ [] → rng.startNode l ∈ l)
    (hsel : ∀ (l : List ℕ) (k : ℕ), k ≤ l.length → l.Nodup →
      (rng.select l k).length = k ∧ rng.select l k ⊆ l ∧ (rng.select l k).Nodup)
    (hV : sg.nodes.Nodup)
    (h2 : 2 ≤ (zSelectNodes rng sg percentage_nodes num_flag).length) :
    (dwug_sampling rng sg g percentage_nodes percentage_edges m num_flag rs).length
      = explorationBudget (if num_flag then percentage_edges
          else ((zSelectNodes rng sg percentage_nodes num_flag).length : ℚ) *
            (((zSelectNodes rng sg percentage_nodes num_flag).length : ℚ) - 1) * (1/2) *
            percentage_edges) ∧
    ∀ e ∈ dwug_sampling rng sg g percentage_nodes percentage_edges m num_flag rs,
      e.1 ∈ zSelectNodes rng sg percentage_nodes num_flag ∧
      e.2.1 ∈ zSelectNodes rng sg percentage_nodes num_flag := by
  have hnd := zSelectNodes_nodup rng sg percentage_nodes num_flag hsel hV
  have hd : dwug_sampling rng sg g percentage_nodes percentage_edges m num_flag rs
      = z_sampling_round rng sg percentage_nodes percentage_edges num_flag := by
    unfold dwug_sampling
    rw [if_pos hempty]
  rw [hd]
  exact exploration_phase_spec rng sg.w _ _ hpick hstart hnd.1 h2

/-- Concrete oracle used for witnesses: deterministic head-based choices
and prefix selection; it satisfies all membership/size constraints the
samplers rely on. -/
def exRng : SampleRng :=
  ⟨fun l => l.headD 0, fun _ l => l.headD 0, fun l k => l.take k,
   fun _ l => l.headD 0, fun _ _ => (0, 1)⟩

theorem headD_mem (l : List ℕ) (h : l ≠ []) : l.headD 0 ∈ l := by
  cases l with
  | nil => exact absurd rfl h
  | cons a t => exact List.mem_cons_self a t

theorem exRng_pick : ∀ k l, l ≠ [] → exRng.pick k l ∈ l := fun _ l h => headD_mem l h

theorem exRng_start : ∀ l, l ≠ [] → exRng.startNode l ∈ l := fun l h => headD_mem l h

theorem exRng_choose : ∀ n l, l ≠ [] → exRng.choose n l ∈ l := fun _ l h => headD_mem l h

theorem exRng_select : ∀ (l : List ℕ) (k : ℕ), k ≤ l.length → l.Nodup →
    (exRng.select l k).length = k ∧ exRng.select l k ⊆ l ∧ (exRng.select l k).Nodup := by
  intro l k hk hnd
  refine ⟨?_, List.take_subset k l, hnd.sublist (List.take_sublist k l)⟩
  show (l.take k).length = k
  rw [List.length_take]
  omega

theorem claim5_thm_witness :
    (dwug_sampling exRng ⟨[0,1,2,3,4,5,6,7,8,9], fun _ _ => some 1⟩
        (AnnotatedGraph.empty 10) 4 3 2 true 0).length
      = explorationBudget (if true then (3:ℚ)
          else ((zSelectNodes exRng ⟨[0,1,2,3,4,5,6,7,8,9], fun _ _ => some 1⟩ 4 true).length : ℚ) *
            (((zSelectNodes exRng ⟨[0,1,2,3,4,5,6,7,8,9], fun _ _ => some 1⟩ 4 true).length : ℚ) - 1) * (1/2) * 3) ∧
    ∀ e ∈ dwug_sampling exRng ⟨[0,1,2,3,4,5,6,7,8,9], fun _ _ => some 1⟩
        (AnnotatedGraph.empty 10) 4 3 2 true 0,
      e.1 ∈ zSelectNodes exRng ⟨[0,1,2,3,4,5,6,7,8,9], fun _ _ => some 1⟩ 4 true ∧
      e.2.1 ∈ zSelectNodes exRng ⟨[0,1,2,3,4,5,6,7,8,9], fun _ _ => some 1⟩ 4 true :=
  claim5_thm exRng ⟨[0,1,2,3,4,5,6,7,8,9], fun _ _ => some 1⟩ (AnnotatedGraph.empty 10)
    4 3 true 2 0 (by decide) exRng_pick exRng_start exRng_select (by decide) (by decide)

/-- Claim C5 counterexample: the emitted edge count is NOT capped at the
complete-subgraph edge count of the selected nodes: with 2 selected
nodes (1 possible distinct pair) and an absolute `edgesToDraw` of 2, the
initial round emits 2 edges, not `min 2 1 = 1`. -/
theorem claim5_counter :
    ¬ ((dwug_sampling exRng ⟨[0,1], fun _ _ => some 1⟩ (AnnotatedGraph.empty 2)
          2 2 2 true 0).length
        = min 2 ((2 * (2 - 1)) / 2)) := by decide

theorem check_con_false_iff (g : AnnotatedGraph) (node : ℕ) (cluster : List ℕ) :
    check_node_cluster_con g node cluster = false ↔
      ∀ c ∈ cluster, g.get_edge node c = none := by
  rw [check_node_cluster_con, List.any_eq_false]
  constructor
  · intro h c hc
    exact Option.not_isSome_iff_eq_none.mp (by simpa using h c hc)
  · intro h c hc
    simp [h c hc]

theorem partitionSmall_fst_eq (g : AnnotatedGraph) (m : ℕ) :
    (partitionSmall g m).1 = (smallClusterNodes g m).filter
      (fun node => (multiClusters g m).any
        (fun cluster => ! check_node_cluster_con g node cluster)) := by
  unfold partitionSmall
  generalize smallClusterNodes g m = l
  suffices h : ∀ (acc : List ℕ × List ℕ),
      (l.foldl (fun acc node =>
        if (multiClusters g m).any (fun cluster => ! check_node_cluster_con g node cluster)
        then (acc.1 ++ [node], acc.2) else (acc.1, acc.2 ++ [node])) acc).1
      = acc.1 ++ l.filter (fun node => (multiClusters g m).any
          (fun cluster => ! check_node_cluster_con g node cluster)) by
    rw [h ([], [])]
    rfl
  induction l with
  | nil => intro acc; simp
  | cons a t ih =>
      intro acc
      rw [List.foldl_cons]
      by_cases ha : (multiClusters g m).any
          (fun cluster => ! check_node_cluster_con g a cluster)
      · rw [if_pos ha, ih, List.filter_cons_of_pos (by simpa using ha)]
        simp
      · rw [if_neg ha, ih, List.filter_cons_of_neg (by simpa using ha)]

theorem comb_inner_fold (rng : SampleRng) (sg : TrueGraph) (g : AnnotatedGraph)
    (node : ℕ) (mcs : List (List ℕ)) (acc : List (ℕ × ℕ × Option ℚ)) :
    mcs.foldl (fun acc2 cluster =>
        if check_node_cluster_con g node cluster then acc2
        else acc2 ++
          [(node, rng.choose node cluster, sg.w node (rng.choose node cluster))]) acc
      = acc ++ (mcs.filter (fun cl => ! check_node_cluster_con g node cl)).map
          (fun cl => (node, rng.choose node cl, sg.w node (rng.choose node cl))) := by
  induction mcs generalizing acc with
  | nil => simp
  | cons cl t ih =>
      rw [List.foldl_cons]
      by_cases hc : check_node_cluster_con g node cl
      · rw [if_pos hc, ih, List.filter_cons_of_neg (by simpa using hc)]
      · rw [if_neg hc, ih, List.filter_cons_of_pos (by simpa using hc), List.map_cons]
        simp

theorem comb_outer_fold (rng : SampleRng) (sg : TrueGraph) (g : AnnotatedGraph)
    (mcs : List (List ℕ)) :
    ∀ (nodes : List ℕ) (acc : List (ℕ × ℕ × Option ℚ)),
      nodes.foldl (fun acc node => mcs.foldl (fun acc2 cluster =>
          if check_node_cluster_con g node cluster then acc2
          else acc2 ++
            [(node, rng.choose node cluster, sg.w node (rng.choose node cluster))]) acc)
        acc
      = acc ++ nodes.flatMap (fun node =>
          (mcs.filter (fun cl => ! check_node_cluster_con g node cl)).map
            (fun cl => (node, rng.choose node cl, sg.w node (rng.choose node cl)))) := by
  intro nodes
  induction nodes with
  | nil => intro acc; simp
  | cons a t ih =>
      intro acc
      rw [List.foldl_cons, comb_inner_fold, ih, List.flatMap_cons, List.append_assoc]

theorem combination_phase_eq (rng : SampleRng) (sg : TrueGraph) (g : AnnotatedGraph)
    (nodes : List ℕ) (mcs : List (List ℕ)) :
    combination_phase rng sg g nodes mcs
      = nodes.flatMap (fun node =>
          (mcs.filter (fun cl => ! check_node_cluster_con g node cl)).map
            (fun cl => (node, rng.choose node cl, sg.w node (rng.choose node cl)))) := by
  by_cases hn : nodes = []
  · subst hn; rfl
  · rw [combination_phase, if_neg hn, comb_outer_fold]
    rfl

/-- Claim C6 amended: in a non-initial DWUG round, a small-cluster node
goes to the combination list iff there is a multi-cluster with NO
recorded judgement pair to any of its members — `get_edge` returns
non-`None` for every registered pair, including pairs whose history is
all MISSING and which therefore have no materialized edge; and the
combination phase emits exactly one edge per (node, not-yet-connected
multi-cluster) pair, whose target is the oracle-chosen member of that
cluster (`random.choice`). -/
theorem claim6_thm (rng : SampleRng) (sg : TrueGraph) (g : AnnotatedGraph) (m : ℕ)
    (hchoose : ∀ (n : ℕ) (cl : List ℕ), cl ≠ [] → rng.choose n cl ∈ cl)
    (hmc : ∀ cl ∈ multiClusters g m, cl ≠ []) :
    (∀ n ∈ smallClusterNodes g m,
        (n ∈ (partitionSmall g m).1 ↔
          ∃ cl ∈ multiClusters g m, ∀ c ∈ cl, g.get_edge n c = none)) ∧
    (∀ nodes : List ℕ, combination_phase rng sg g nodes (multiClusters g m)
        = nodes.flatMap (fun node =>
            ((multiClusters g m).filter
              (fun cl => ! check_node_cluster_con g node cl)).map
              (fun cl => (node, rng.choose node cl, sg.w node (rng.choose node cl))))) ∧
    (∀ nodes : List ℕ, ∀ e ∈ combination_phase rng sg g nodes (multiClusters g m),
        ∃ cl ∈ multiClusters g m,
          check_node_cluster_con g e.1 cl = false ∧ e.2.1 ∈ cl) := by
  refine ⟨?_, fun nodes => combination_phase_eq rng sg g nodes _, ?_⟩
  · intro n hn
    rw [partitionSmall_fst_eq, List.mem_filter]
    constructor
    · intro h
      rcases List.any_eq_true.mp h.2 with ⟨cl, hcl, hb⟩
      exact ⟨cl, hcl, (check_con_false_iff g n cl).mp (by simpa using hb)⟩
    · rintro ⟨cl, hcl, hall⟩
      refine ⟨hn, List.any_eq_true.mpr ⟨cl, hcl, ?_⟩⟩
      simp [(check_con_false_iff g n cl).mpr hall]
  · intro nodes e he
    rw [combination_phase_eq] at he
    rcases List.mem_flatMap.mp he with ⟨node, _, he2⟩
    rcases List.mem_map.mp he2 with ⟨cl, hcl, he3⟩
    have hcl2 := List.mem_filter.mp hcl
    subst he3
    refine ⟨cl, hcl2.1, by simpa using hcl2.2, ?_⟩
    exact hchoose node cl (hmc cl hcl2.1)

/-- Annotated graph for the C6 witness: edge (0,1) materialized with
weight 4, communities {0,1} (multi for m = 2) and {5} (small); node 5
has no recorded pair at all. -/
def dwugWitnessGraph : AnnotatedGraph :=
  ((AnnotatedGraph.empty 6).add_edges
      [(0,1,some 4)]).update_community_nodes_membership [(0,[0,1]),(1,[5])]

theorem claim6_thm_witness :
    (∀ n ∈ smallClusterNodes dwugWitnessGraph 2,
        (n ∈ (partitionSmall dwugWitnessGraph 2).1 ↔
          ∃ cl ∈ multiClusters dwugWitnessGraph 2, ∀ c ∈ cl,
            dwugWitnessGraph.get_edge n c = none)) ∧
    (∀ nodes : List ℕ,
        combination_phase exRng ⟨[0,1,5], fun _ _ => some 1⟩ dwugWitnessGraph nodes
            (multiClusters dwugWitnessGraph 2)
          = nodes.flatMap (fun node =>
              ((multiClusters dwugWitnessGraph 2).filter
                (fun cl => ! check_node_cluster_con dwugWitnessGraph node cl)).map
                (fun cl => (node, exRng.choose node cl,
                  (fun _ _ => (some 1 : Option ℚ)) node (exRng.choose node cl))))) ∧
    (∀ nodes : List ℕ, ∀ e ∈ combination_phase exRng ⟨[0,1,5], fun _ _ => some 1⟩
          dwugWitnessGraph nodes (multiClusters dwugWitnessGraph 2),
        ∃ cl ∈ multiClusters dwugWitnessGraph 2,
          check_node_cluster_con dwugWitnessGraph e.1 cl = false ∧ e.2.1 ∈ cl) :=
  claim6_thm exRng ⟨[0,1,5], fun _ _ => some 1⟩ dwugWitnessGraph 2 exRng_choose
    (by decide)

/-- Annotated graph for the C6 counterexample: like the witness graph but
with an additional all-MISSING judgement history for the pair (0,5): the
pair is registered, yet no edge (0,5) exists in the graph. -/
def dwugCounterGraph : AnnotatedGraph :=
  ((AnnotatedGraph.empty 6).add_edges
      [(0,1,some 4),(5,0,none)]).update_community_nodes_membership [(0,[0,1]),(1,[5])]

/-- Claim C6 counterexample: node 5 sits in a small cluster and has NO
edge in the annotated graph to the single multi-cluster {0,1} (its only
recorded pair (0,5) is all-MISSING and materialized no edge), yet the
round does NOT place it in the combination list — the connectivity test
uses `get_edge`, which also counts registered-but-unmaterialized pairs. -/
theorem claim6_counter :
    ¬ (5 ∈ smallClusterNodes dwugCounterGraph 2 →
        ((5 ∈ (partitionSmall dwugCounterGraph 2).1) ↔
          ∃ cl ∈ multiClusters dwugCounterGraph 2, ∀ c ∈ cl,
            (min 5 c, max 5 c) ∉ dwugCounterGraph.edges)) := by decide

end WugSim
